import Mathlib

/-!
Shallow embedding of `src/main.go` (NeuVector support-bundle viewer backend).

The Go program holds a parsed JSON document (`map[string]interface{}`) and,
per request, projects the value found under one top-level key.  We embed the
untyped JSON tree as `JVal`, Go `map[string]interface{}` values as
association lists (`Obj`), and the per-request query parameters as `Params`.
Go's dynamic type assertions (`x.(string)` with an `ok` flag) become the
`getStrField` / `getBoolField` accessors, which default to the zero value,
exactly as the code does; the single *unchecked* assertion in the group loop
(`groupIface.(map[string]interface{})`, which panics on mismatch) is modelled
by `processGroups` returning `Option` with `none` for the panic.

Character case folding (`strings.ToLower`) is modelled on ASCII via
`Char.toLower`; all string comparisons performed by the program involve
plain ASCII.
-/

/-- Untyped JSON value, the embedding of Go's `interface{}` after
`encoding/json` unmarshalling.  Numbers are kept abstract as rationals;
no code path of the program computes with them. -/
inductive JVal where
  | str : String → JVal
  | num : Rat → JVal
  | bool : Bool → JVal
  | null : JVal
  | arr : List JVal → JVal
  | obj : List (String × JVal) → JVal

/-- A JSON object (Go `map[string]interface{}`) as an association list. -/
abbrev Obj := List (String × JVal)

/-- Whether a value is a JSON object (Go: the `.(map[string]interface{})`
type test succeeds). -/
def isObj : JVal → Bool
  | JVal.obj _ => true
  | _ => false

/-- Go map read `m[k]`: `none` when the key is absent. -/
def getField : Obj → String → Option JVal
  | [], _ => none
  | (k, v) :: rest, key => if k = key then some v else getField rest key

/-- Go map read used in an assignment position: a missing key yields the
zero `interface{}` value, which serializes as JSON `null`. -/
def getD (m : Obj) (k : String) : JVal :=
  (getField m k).getD JVal.null

/-- Go pattern `s, _ := m[k].(string)`: the string value, or `""` when the
field is absent or not a string. -/
def getStrField (m : Obj) (k : String) : String :=
  match getField m k with
  | some (JVal.str s) => s
  | _ => ""

/-- Go pattern `b, ok := m[k].(bool)` followed by `if !ok { b = false }`. -/
def getBoolField (m : Obj) (k : String) : Bool :=
  match getField m k with
  | some (JVal.bool b) => b
  | _ => false

/-- Go `strings.HasPrefix s pre` on character lists. -/
def hasPrefixFn : List Char → List Char → Bool
  | _, [] => true
  | [], _ :: _ => false
  | c :: s, d :: t => c == d && hasPrefixFn s t

/-- Go `strings.HasPrefix` on strings. -/
def hasPrefixStr (s pre : String) : Bool :=
  hasPrefixFn s.data pre.data

/-- Go `strings.Contains s sub` (substring containment) on character lists. -/
def containsFn : List Char → List Char → Bool
  | [], sub => sub.isEmpty
  | c :: rest, sub => hasPrefixFn (c :: rest) sub || containsFn rest sub

/-- Go `strings.Contains` on strings. -/
def containsStr (s sub : String) : Bool :=
  containsFn s.data sub.data

/-- Go `strings.ToLower` (ASCII case folding). -/
def toLowerStr (s : String) : String :=
  String.mk (s.data.map Char.toLower)

/-- The query parameters read by `getDataHandler`:
`zero_drift`, `domain` and `policy_mode`.  A parameter absent from the URL
reads as `""` (Go `url.Values.Get`). -/
structure Params where
  zero_drift : String
  domain : String
  policy_mode : String

/-- Group filter, `name` step (main.go:163): drop groups whose name starts
with an underscore; a missing / non-string name reads as `""`. -/
def passUnderscore (m : Obj) : Bool :=
  !(hasPrefixStr (getStrField m "name") "_")

/-- Group filter, `zero_drift` step (main.go:167-178): `zero_drift_enabled`
missing or non-bool reads as `false`. -/
def passZeroDrift (p : Params) (m : Obj) : Bool :=
  if p.zero_drift = "" then true
  else if p.zero_drift == "true" && !(getBoolField m "zero_drift_enabled") then false
  else if p.zero_drift == "false" && getBoolField m "zero_drift_enabled" then false
  else true

/-- Group filter, `domain` step (main.go:180-189): case-insensitive
substring containment. -/
def passDomainFilter (p : Params) (m : Obj) : Bool :=
  if p.domain = "" then true
  else containsStr (toLowerStr (getStrField m "domain")) (toLowerStr p.domain)

/-- Group filter, `policy_mode` step (main.go:191-200): the parameter is
lower-cased once up front (main.go:155); kept only on exact equality. -/
def passPolicyMode (p : Params) (m : Obj) : Bool :=
  if toLowerStr p.policy_mode = "" then true
  else toLowerStr (getStrField m "policy_mode") == toLowerStr p.policy_mode

/-- Conjunction of the four group filter steps; the Go `continue` chain
(main.go:157-204) keeps a group exactly when every step passes. -/
def groupKeep (p : Params) (m : Obj) : Bool :=
  passUnderscore m && passZeroDrift p m && passDomainFilter p m && passPolicyMode p m

/-- `p2` enables a superset of `p1`'s active group filters: every filter
active (non-empty) in `p1` is present in `p2` with the same value. -/
def ParamsExtends (p1 p2 : Params) : Prop :=
  (p1.zero_drift ≠ "" → p2.zero_drift = p1.zero_drift) ∧
  (p1.domain ≠ "" → p2.domain = p1.domain) ∧
  (p1.policy_mode ≠ "" → p2.policy_mode = p1.policy_mode)

/-- The `/v1/group` element loop (main.go:157-204).  Each element is cast
with the unchecked assertion `groupIface.(map[string]interface{})`; a
non-object element panics the handler, modelled as `none`.  Kept groups are
emitted unchanged, in order. -/
def processGroups (p : Params) : List JVal → Option (List JVal)
  | [] => some []
  | JVal.obj g :: rest =>
    (processGroups p rest).map fun t => if groupKeep p g then JVal.obj g :: t else t
  | _ :: _ => none

/-- Version selection for one platform record (main.go:227-242): when the
`platform` name is a string containing "openshift" case-insensitively, use
`openshift_version`; when it is a string not containing it, use
`kube_version`; when it is absent or not a string, use the direct `version`
field.  A chosen field that is absent or not a string leaves `""`. -/
def computeVersion (m : Obj) : String :=
  match getField m "platform" with
  | some (JVal.str platformName) =>
    if containsStr (toLowerStr platformName) "openshift" then
      getStrField m "openshift_version"
    else
      getStrField m "kube_version"
  | _ => getStrField m "version"

/-- One flattened platform record (main.go:223-252): `platform`, `status`,
the computed `version`, and, when a nested `scan_summary` object exists,
`high`, `medium` and `scanned_at` lifted from it. -/
def projectPlatform (m : Obj) : Obj :=
  let base : Obj :=
    [("platform", getD m "platform"), ("status", getD m "status"),
     ("version", JVal.str (computeVersion m))]
  match getField m "scan_summary" with
  | some (JVal.obj ss) =>
    base ++ [("high", getD ss "high"), ("medium", getD ss "medium"),
             ("scanned_at", getD ss "scanned_at")]
  | _ => base

/-- The `/v1/scan/platform` element loop (main.go:221-254): elements that
are not objects are silently skipped (checked cast with `ok` flag). -/
def processPlatforms : List JVal → List JVal
  | [] => []
  | JVal.obj m :: rest => JVal.obj (projectPlatform m) :: processPlatforms rest
  | _ :: rest => processPlatforms rest

/-- Domain filter (main.go:278-292): drop domains whose name starts with an
underscore, then, when the `domain` query parameter is non-empty, keep only
domains whose name case-insensitively contains it. -/
def domainKeep (p : Params) (m : Obj) : Bool :=
  if hasPrefixStr (getStrField m "name") "_" then false
  else if p.domain = "" then true
  else containsStr (toLowerStr (getStrField m "name")) (toLowerStr p.domain)

/-- One flattened domain record (main.go:294-299). -/
def projectDomain (m : Obj) : Obj :=
  [("name", getD m "name"), ("workloads", getD m "workloads"),
   ("running_workloads", getD m "running_workloads"),
   ("running_pods", getD m "running_pods"), ("services", getD m "services")]

/-- The `/v1/domain` element loop (main.go:276-303): non-object elements are
silently skipped. -/
def processDomains (p : Params) : List JVal → List JVal
  | [] => []
  | JVal.obj m :: rest =>
    if domainKeep p m then JVal.obj (projectDomain m) :: processDomains p rest
    else processDomains p rest
  | _ :: rest => processDomains p rest

/-- Host filter (main.go:329-334): the `domain` query parameter is reused
against the host `name`; there is no underscore exclusion for hosts. -/
def hostKeep (p : Params) (m : Obj) : Bool :=
  if p.domain = "" then true
  else containsStr (toLowerStr (getStrField m "name")) (toLowerStr p.domain)

/-- One flattened host record (main.go:336-350): five always-present
fields, plus `scan_status` (renamed from `status`), `high`, `medium` and
`scanned_at` when a nested `scan_summary` object exists. -/
def projectHost (m : Obj) : Obj :=
  let base : Obj :=
    [("name", getD m "name"), ("state", getD m "state"), ("os", getD m "os"),
     ("platform", getD m "platform"), ("containers", getD m "containers")]
  match getField m "scan_summary" with
  | some (JVal.obj ss) =>
    base ++ [("scan_status", getD ss "status"), ("high", getD ss "high"),
             ("medium", getD ss "medium"), ("scanned_at", getD ss "scanned_at")]
  | _ => base

/-- The `/v1/host` element loop (main.go:325-353): non-object elements are
silently skipped. -/
def processHosts (p : Params) : List JVal → List JVal
  | [] => []
  | JVal.obj m :: rest =>
    if hostKeep p m then JVal.obj (projectHost m) :: processHosts p rest
    else processHosts p rest
  | _ :: rest => processHosts p rest

/-- Outcome of `getDataHandler` once the key has been found in the
document: a 200 response with a JSON payload, a 500 response
(`http.Error ... StatusInternalServerError`), or a runtime panic with no
response written. -/
inductive HResult where
  | ok : JVal → HResult
  | internalError : HResult
  | panic : HResult

/-- The key-dispatched projection of `getDataHandler` (main.go:146-370),
for a key present in the document with value `val`.  Note the `/v1/group`
branch: on a shape mismatch it only logs and falls through to the default
`json.NewEncoder(w).Encode(val)` at main.go:370, while the other three
branches return a 500. -/
def project (key : String) (val : JVal) (p : Params) : HResult :=
  if key = "/v1/group" then
    match val with
    | JVal.obj valMap =>
      match getField valMap "groups" with
      | some (JVal.arr groups) =>
        match processGroups p groups with
        | some filteredGroups => HResult.ok (JVal.arr filteredGroups)
        | none => HResult.panic
      | some _ => HResult.ok val
      | none => HResult.ok val
    | _ => HResult.ok val
  else if key = "/v1/scan/platform" then
    match val with
    | JVal.obj valMap =>
      match getField valMap "platforms" with
      | some (JVal.arr platforms) => HResult.ok (JVal.arr (processPlatforms platforms))
      | _ => HResult.internalError
    | _ => HResult.internalError
  else if key = "/v1/domain" then
    match val with
    | JVal.obj valMap =>
      match getField valMap "domains" with
      | some (JVal.arr domains) => HResult.ok (JVal.arr (processDomains p domains))
      | _ => HResult.internalError
    | _ => HResult.internalError
  else if key = "/v1/host" then
    match val with
    | JVal.obj valMap =>
      match getField valMap "hosts" with
      | some (JVal.arr hosts) => HResult.ok (JVal.arr (processHosts p hosts))
      | _ => HResult.internalError
    | _ => HResult.internalError
  else
    HResult.ok val

/-- The key catalog of `getKeysHandler` (main.go:97-113): all root keys,
then, when the `q` query parameter is non-empty, only the keys whose
lower-cased form contains the lower-cased query. -/
def listKeys (allKeys : List String) (q : String) : List String :=
  if q = "" then allKeys
  else allKeys.filter fun key => containsStr (toLowerStr key) (toLowerStr q)

/-- Go `strings.ReplaceAll path "%2F" "/"` specialised to this pattern:
left-to-right, non-overlapping replacement of every occurrence. -/
def replaceAll2F : List Char → List Char
  | '%' :: '2' :: 'F' :: rest => '/' :: replaceAll2F rest
  | c :: rest => c :: replaceAll2F rest
  | [] => []

/-- `decodePath` (main.go:374-377): replaces every `%2F` by `/` and always
returns a `nil` error. -/
def decodePath (path : String) : Except String String :=
  Except.ok (String.mk (replaceAll2F path.data))

/-- Searching for the empty pattern always succeeds (Go `strings.Contains s ""`). -/
theorem containsFn_nil (s : List Char) : containsFn s [] = true := by
  cases s <;> simp [containsFn, hasPrefixFn, List.isEmpty]

/-- `listKeys` is the filter by case-insensitive substring containment, for
every query including the empty one. -/
theorem listKeys_eq_filter (allKeys : List String) (q : String) :
    listKeys allKeys q =
      allKeys.filter fun key => containsStr (toLowerStr key) (toLowerStr q) := by
  unfold listKeys
  by_cases hq : q = ""
  · subst hq
    rw [if_pos rfl]
    have h : ∀ key : String, containsStr (toLowerStr key) (toLowerStr "") = true := by
      intro key
      show containsFn (toLowerStr key).data [] = true
      exact containsFn_nil _
    exact (List.filter_eq_self.mpr (fun a _ => h a)).symm
  · rw [if_neg hq]

/-- Claim C1: the spec requires the `/v1/group` branch to answer a 500
InternalError, like the three sibling branches, whenever the value under
the key is not a mapping with an array field `groups`.  The code instead
logs and falls through to the default encoder, returning the raw value with
a 200: evaluated on the string value "oops" (and on a mapping without a
`groups` array), the group branch yields `ok` with the raw value while the
platform, domain and host branches yield `internalError`. -/
theorem C1_group_shape_error_returns_raw :
    project "/v1/group" (JVal.str "oops") ⟨"", "", ""⟩ = HResult.ok (JVal.str "oops") ∧
    project "/v1/group" (JVal.obj []) ⟨"", "", ""⟩ = HResult.ok (JVal.obj []) ∧
    project "/v1/group" (JVal.obj [("groups", JVal.str "bad")]) ⟨"", "", ""⟩ =
      HResult.ok (JVal.obj [("groups", JVal.str "bad")]) ∧
    project "/v1/scan/platform" (JVal.str "oops") ⟨"", "", ""⟩ = HResult.internalError ∧
    project "/v1/domain" (JVal.str "oops") ⟨"", "", ""⟩ = HResult.internalError ∧
    project "/v1/host" (JVal.str "oops") ⟨"", "", ""⟩ = HResult.internalError :=
  ⟨rfl, rfl, rfl, rfl, rfl, rfl⟩

/-- Claim C2: for every key other than the four recognized ones, the
projection returns the raw value unchanged with an OK status, whatever the
query parameters are. -/
theorem C2_unrecognized_key_raw_pass_through (k : String) (v : JVal) (p : Params)
    (h1 : k ≠ "/v1/group") (h2 : k ≠ "/v1/scan/platform")
    (h3 : k ≠ "/v1/domain") (h4 : k ≠ "/v1/host") :
    project k v p = HResult.ok v := by
  unfold project
  rw [if_neg h1, if_neg h2, if_neg h3, if_neg h4]

theorem C2_witness :
    ("/v1/workload" : String) ≠ "/v1/group" ∧
    project "/v1/workload" (JVal.str "x") ⟨"true", "d", "m"⟩ = HResult.ok (JVal.str "x") :=
  ⟨by decide,
   C2_unrecognized_key_raw_pass_through "/v1/workload" (JVal.str "x") ⟨"true", "d", "m"⟩
     (by decide) (by decide) (by decide) (by decide)⟩

/-- Claim C7: the key decoder is total — it always returns `ok`, with the
input rewritten by `replaceAll2F`, which replaces each occurrence of the
three characters `%2F` by `/` and leaves every position not starting this
exact pattern unchanged (so no other percent-encoding is decoded). -/
theorem C7_decodePath_total_replaces_only_2F :
    (∀ path : String, decodePath path = Except.ok (String.mk (replaceAll2F path.data))) ∧
    (∀ rest : List Char, replaceAll2F ('%' :: '2' :: 'F' :: rest) = '/' :: replaceAll2F rest) ∧
    (∀ (c : Char) (p : List Char), List.take 3 (c :: p) ≠ ['%', '2', 'F'] →
      replaceAll2F (c :: p) = c :: replaceAll2F p) ∧
    replaceAll2F [] = [] := by
  refine ⟨fun _ => rfl, fun _ => rfl, ?_, rfl⟩
  intro c p h
  conv_lhs => rw [replaceAll2F.eq_def]
  split
  · rename_i rest heq
    rw [heq] at h
    simp [List.take] at h
  · rename_i c' rest' heq
    injection heq with h1 h2
    rw [h1, h2]
  · rename_i heq
    exact absurd heq (by simp)

theorem C7_witness :
    List.take 3 ['%', '2', 'f'] ≠ ['%', '2', 'F'] ∧
    replaceAll2F ['%', '2', 'f'] = '%' :: replaceAll2F ['2', 'f'] :=
  ⟨by decide, C7_decodePath_total_replaces_only_2F.2.2.1 '%' ['2', 'f'] (by decide)⟩

/-- Lower-casing a string keeps its length, so only the empty string folds
to the empty string. -/
theorem toLowerStr_eq_empty (s : String) : toLowerStr s = "" ↔ s = "" := by
  constructor
  · intro h
    have hd : (s.data.map Char.toLower) = ([] : List Char) :=
      congrArg String.data h
    rcases List.map_eq_nil_iff.mp hd with h2
    cases s
    simp_all
  · intro h
    subst h
    rfl

/-- Claim C3: with a non-empty `policy_mode` query parameter, a group is
kept only if its `policy_mode` field (missing or non-string reads as `""`)
is case-insensitively exactly equal to the parameter; conversely, with the
other filters inactive and the name not underscore-prefixed, case-insensitive
equality suffices for the group to be kept (so substring matches such as
"Monitor" against "monitoring" are excluded, while "Monitor" and "MONITOR"
are included). -/
theorem C3_policy_mode_exact_match (p : Params) (m : Obj) (hne : p.policy_mode ≠ "") :
    (groupKeep p m = true →
      toLowerStr (getStrField m "policy_mode") = toLowerStr p.policy_mode) ∧
    (passUnderscore m = true → p.zero_drift = "" → p.domain = "" →
      toLowerStr (getStrField m "policy_mode") = toLowerStr p.policy_mode →
      groupKeep p m = true) := by
  have hlow : toLowerStr p.policy_mode ≠ "" := fun h =>
    hne ((toLowerStr_eq_empty p.policy_mode).mp h)
  constructor
  · intro hk
    simp only [groupKeep, Bool.and_eq_true] at hk
    obtain ⟨⟨⟨hu, hzd⟩, hdm⟩, hp⟩ := hk
    simp only [passPolicyMode] at hp
    rw [if_neg hlow] at hp
    exact beq_iff_eq.mp hp
  · intro hu hz hd heq
    simp only [groupKeep, Bool.and_eq_true]
    refine ⟨⟨⟨hu, ?_⟩, ?_⟩, ?_⟩
    · simp [passZeroDrift, hz]
    · simp [passDomainFilter, hd]
    · simp only [passPolicyMode]
      rw [if_neg hlow]
      exact beq_iff_eq.mpr heq

theorem C3_witness :
    groupKeep ⟨"", "", "MONITOR"⟩
      [("name", JVal.str "g1"), ("policy_mode", JVal.str "Monitor")] = true ∧
    groupKeep ⟨"", "", "monitoring"⟩
      [("name", JVal.str "g1"), ("policy_mode", JVal.str "Monitor")] = false :=
  ⟨(C3_policy_mode_exact_match ⟨"", "", "MONITOR"⟩
      [("name", JVal.str "g1"), ("policy_mode", JVal.str "Monitor")] (by decide)).2
      (by decide) rfl rfl (by decide),
   by decide⟩

/-- A kept group passed the underscore check. -/
theorem groupKeep_name_not_underscore (p : Params) (m : Obj)
    (h : groupKeep p m = true) : hasPrefixStr (getStrField m "name") "_" = false := by
  simp only [groupKeep, Bool.and_eq_true] at h
  have hu := h.1.1.1
  simp only [passUnderscore, Bool.not_eq_true'] at hu
  exact hu

/-- The projected domain record carries the source record's `name` field
through unchanged, so its name-as-string is the same. -/
theorem getStrField_projectDomain (m : Obj) :
    getStrField (projectDomain m) "name" = getStrField m "name" := by
  unfold getStrField projectDomain getD
  cases h : getField m "name" with
  | none => rfl
  | some v => cases v <;> rfl

/-- Claim C5: for the group and domain shapes, a record whose name starts
with an underscore never reaches the output, whatever the query
parameters: a group object with an underscore name is never a member of a
successful `processGroups` result, and every record emitted by
`processDomains` has a name that does not start with an underscore. -/
theorem C5_underscore_names_never_output :
    (∀ (p : Params) (gs out : List JVal) (m : Obj),
      processGroups p gs = some out →
      hasPrefixStr (getStrField m "name") "_" = true →
      JVal.obj m ∉ out) ∧
    (∀ (p : Params) (ds : List JVal) (r : Obj),
      JVal.obj r ∈ processDomains p ds →
      hasPrefixStr (getStrField r "name") "_" = false) := by
  constructor
  · intro p gs
    induction gs with
    | nil =>
      intro out m h hm
      simp only [processGroups] at h
      injection h with h
      subst h
      simp
    | cons v rest ih =>
      intro out m h hm
      cases v with
      | obj g =>
        simp only [processGroups] at h
        cases hr : processGroups p rest with
        | none => rw [hr] at h; simp at h
        | some t =>
          rw [hr, Option.map_some'] at h
          injection h with h
          subst h
          by_cases hk : groupKeep p g = true
          · rw [if_pos hk]
            intro hmem
            rcases List.mem_cons.mp hmem with heq | htail
            · injection heq with heq
              subst heq
              rw [groupKeep_name_not_underscore p m hk] at hm
              cases hm
            · exact ih t m hr hm htail
          · rw [if_neg hk]
            exact ih t m hr hm
      | str s => simp only [processGroups] at h; cases h
      | num q => simp only [processGroups] at h; cases h
      | bool b => simp only [processGroups] at h; cases h
      | null => simp only [processGroups] at h; cases h
      | arr a => simp only [processGroups] at h; cases h
  · intro p ds
    induction ds with
    | nil => intro r h; simp [processDomains] at h
    | cons v rest ih =>
      intro r h
      cases v with
      | obj d =>
        simp only [processDomains] at h
        by_cases hk : domainKeep p d = true
        · rw [if_pos hk] at h
          rcases List.mem_cons.mp h with heq | htail
          · injection heq with heq
            subst heq
            rw [getStrField_projectDomain]
            by_cases hu : hasPrefixStr (getStrField d "name") "_" = true
            · unfold domainKeep at hk
              rw [if_pos hu] at hk
              cases hk
            · exact Bool.eq_false_iff.mpr hu
          · exact ih r htail
        · rw [if_neg hk] at h
          exact ih r h
      | str s => exact ih r h
      | num q => exact ih r h
      | bool b => exact ih r h
      | null => exact ih r h
      | arr a => exact ih r h

theorem C5_witness :
    processGroups ⟨"", "", ""⟩ [JVal.obj [("name", JVal.str "_sys")]] = some [] ∧
    hasPrefixStr (getStrField [("name", JVal.str "_sys")] "name") "_" = true ∧
    JVal.obj [("name", JVal.str "_sys")] ∉ ([] : List JVal) :=
  ⟨rfl, by decide,
   C5_underscore_names_never_output.1 ⟨"", "", ""⟩
     [JVal.obj [("name", JVal.str "_sys")]] [] [("name", JVal.str "_sys")]
     rfl (by decide)⟩

/-- The flattened platform record always carries the computed version. -/
theorem getField_projectPlatform_version (m : Obj) :
    getField (projectPlatform m) "version" = some (JVal.str (computeVersion m)) := by
  unfold projectPlatform
  cases h : getField m "scan_summary" with
  | none => rfl
  | some v => cases v <;> rfl

/-- Claim C6: the `version` field of each emitted platform record is
selected as follows — when the element's `platform` name is a string
containing "openshift" case-insensitively, it is the `openshift_version`
field; when the `platform` name is a string not containing it, it is the
`kube_version` field; when the `platform` name is absent or not a string,
it is the direct `version` field; in each case a missing or non-string
source field yields `""` (the reading `getStrField`). -/
theorem C6_platform_version_selection (m : Obj) :
    (∀ s : String, getField m "platform" = some (JVal.str s) →
      containsStr (toLowerStr s) "openshift" = true →
      getField (projectPlatform m) "version" =
        some (JVal.str (getStrField m "openshift_version"))) ∧
    (∀ s : String, getField m "platform" = some (JVal.str s) →
      containsStr (toLowerStr s) "openshift" = false →
      getField (projectPlatform m) "version" =
        some (JVal.str (getStrField m "kube_version"))) ∧
    ((∀ s : String, getField m "platform" ≠ some (JVal.str s)) →
      getField (projectPlatform m) "version" =
        some (JVal.str (getStrField m "version"))) := by
  refine ⟨?_, ?_, ?_⟩
  · intro s hs hc
    rw [getField_projectPlatform_version]
    simp [computeVersion, hs, hc]
  · intro s hs hc
    rw [getField_projectPlatform_version]
    simp [computeVersion, hs, hc]
  · intro hns
    rw [getField_projectPlatform_version]
    cases h : getField m "platform" with
    | none => simp [computeVersion, h]
    | some v =>
      cases v with
      | str s => exact absurd h (hns s)
      | num q => simp [computeVersion, h]
      | bool b => simp [computeVersion, h]
      | null => simp [computeVersion, h]
      | arr a => simp [computeVersion, h]
      | obj o => simp [computeVersion, h]

theorem C6_witness :
    getField [("platform", JVal.str "OpenShift"), ("openshift_version", JVal.str "4.10")]
      "platform" = some (JVal.str "OpenShift") ∧
    containsStr (toLowerStr "OpenShift") "openshift" = true ∧
    getField
      (projectPlatform
        [("platform", JVal.str "OpenShift"), ("openshift_version", JVal.str "4.10")])
      "version" =
      some (JVal.str
        (getStrField [("platform", JVal.str "OpenShift"),
          ("openshift_version", JVal.str "4.10")] "openshift_version")) :=
  ⟨rfl, by decide,
   (C6_platform_version_selection
      [("platform", JVal.str "OpenShift"), ("openshift_version", JVal.str "4.10")]).1
     "OpenShift" rfl (by decide)⟩

/-- Claim C9: the host pipeline applies no underscore exclusion — a host
object whose name starts with `_` appears in the output whenever the
`domain` query parameter is empty or its name case-insensitively contains
it, asymmetric with the group and domain shapes. -/
theorem C9_hosts_include_underscore_names (p : Params) (hs : List JVal) (m : Obj)
    (hmem : JVal.obj m ∈ hs)
    (_hname : hasPrefixStr (getStrField m "name") "_" = true)
    (hpass : p.domain = "" ∨
      containsStr (toLowerStr (getStrField m "name")) (toLowerStr p.domain) = true) :
    JVal.obj (projectHost m) ∈ processHosts p hs := by
  have hk : hostKeep p m = true := by
    unfold hostKeep
    rcases hpass with hd | hc
    · rw [if_pos hd]
    · by_cases hd : p.domain = ""
      · rw [if_pos hd]
      · rw [if_neg hd]
        exact hc
  revert hmem
  induction hs with
  | nil =>
    intro hmem
    cases hmem
  | cons v rest ih =>
    intro hmem
    rcases List.mem_cons.mp hmem with heq | htail
    · rw [← heq]
      simp only [processHosts]
      rw [if_pos hk]
      exact List.mem_cons_self _ _
    · have hr := ih htail
      cases v with
      | obj m2 =>
        simp only [processHosts]
        by_cases hk2 : hostKeep p m2 = true
        · rw [if_pos hk2]
          exact List.mem_cons_of_mem _ hr
        · rw [if_neg hk2]
          exact hr
      | str s => exact hr
      | num q => exact hr
      | bool b => exact hr
      | null => exact hr
      | arr a => exact hr

theorem C9_witness :
    JVal.obj [("name", JVal.str "_h")] ∈ [JVal.obj [("name", JVal.str "_h")]] ∧
    hasPrefixStr (getStrField [("name", JVal.str "_h")] "name") "_" = true ∧
    JVal.obj (projectHost [("name", JVal.str "_h")]) ∈
      processHosts ⟨"", "", ""⟩ [JVal.obj [("name", JVal.str "_h")]] :=
  ⟨List.mem_singleton.mpr rfl, by decide,
   C9_hosts_include_underscore_names ⟨"", "", ""⟩ [JVal.obj [("name", JVal.str "_h")]]
     [("name", JVal.str "_h")] (List.mem_singleton.mpr rfl) (by decide) (Or.inl rfl)⟩

/-- Claim C10: the group loop casts each element with an unchecked type
assertion, so a single non-object element of `groups` makes the handler
panic with no response (`processGroups` is `none`, and the full group
projection is `panic`), whereas the platform, domain and host loops
silently skip non-object elements. -/
theorem C10_group_element_assertion_panics (p : Params) :
    (∀ gs : List JVal, (∃ v ∈ gs, isObj v = false) → processGroups p gs = none) ∧
    (∀ gs : List JVal, (∃ v ∈ gs, isObj v = false) →
      project "/v1/group" (JVal.obj [("groups", JVal.arr gs)]) p = HResult.panic) ∧
    (∀ (v : JVal) (rest : List JVal), isObj v = false →
      processPlatforms (v :: rest) = processPlatforms rest) ∧
    (∀ (v : JVal) (rest : List JVal), isObj v = false →
      processDomains p (v :: rest) = processDomains p rest) ∧
    (∀ (v : JVal) (rest : List JVal), isObj v = false →
      processHosts p (v :: rest) = processHosts p rest) := by
  have hgroups : ∀ gs : List JVal,
      (∃ v ∈ gs, isObj v = false) → processGroups p gs = none := by
    intro gs
    induction gs with
    | nil =>
      intro h
      rcases h with ⟨v, hv, _⟩
      cases hv
    | cons w rest ih =>
      intro h
      rcases h with ⟨v, hv, hno⟩
      rcases List.mem_cons.mp hv with heq | htail
      · rw [heq] at hno
        cases w with
        | obj g => simp [isObj] at hno
        | str s => rfl
        | num q => rfl
        | bool b => rfl
        | null => rfl
        | arr a => rfl
      · cases w with
        | obj g =>
          simp only [processGroups]
          rw [ih ⟨v, htail, hno⟩]
          rfl
        | str s => rfl
        | num q => rfl
        | bool b => rfl
        | null => rfl
        | arr a => rfl
  refine ⟨hgroups, ?_, ?_, ?_, ?_⟩
  · intro gs h
    have h1 := hgroups gs h
    simp [project, getField, h1]
  · intro v rest hno
    cases v <;> first | rfl | simp [isObj] at hno
  · intro v rest hno
    cases v <;> first | rfl | simp [isObj] at hno
  · intro v rest hno
    cases v <;> first | rfl | simp [isObj] at hno

theorem C10_witness :
    (∃ v ∈ [JVal.null], isObj v = false) ∧
    processGroups ⟨"", "", ""⟩ [JVal.null] = none ∧
    project "/v1/group" (JVal.obj [("groups", JVal.arr [JVal.null])]) ⟨"", "", ""⟩ =
      HResult.panic ∧
    processPlatforms [JVal.null] = processPlatforms [] :=
  ⟨⟨JVal.null, List.mem_singleton.mpr rfl, rfl⟩,
   (C10_group_element_assertion_panics ⟨"", "", ""⟩).1 [JVal.null]
     ⟨JVal.null, List.mem_singleton.mpr rfl, rfl⟩,
   (C10_group_element_assertion_panics ⟨"", "", ""⟩).2.1 [JVal.null]
     ⟨JVal.null, List.mem_singleton.mpr rfl, rfl⟩,
   (C10_group_element_assertion_panics ⟨"", "", ""⟩).2.2.1 JVal.null [] rfl⟩

/-- The `zero_drift` step is preserved when the parameter is inherited. -/
theorem passZeroDrift_mono (p1 p2 : Params)
    (h : p1.zero_drift ≠ "" → p2.zero_drift = p1.zero_drift) (m : Obj)
    (hk : passZeroDrift p2 m = true) : passZeroDrift p1 m = true := by
  by_cases he : p1.zero_drift = ""
  · unfold passZeroDrift
    rw [if_pos he]
  · have e := h he
    unfold passZeroDrift at hk ⊢
    rw [e] at hk
    exact hk

/-- The `domain` step is preserved when the parameter is inherited. -/
theorem passDomainFilter_mono (p1 p2 : Params)
    (h : p1.domain ≠ "" → p2.domain = p1.domain) (m : Obj)
    (hk : passDomainFilter p2 m = true) : passDomainFilter p1 m = true := by
  by_cases he : p1.domain = ""
  · unfold passDomainFilter
    rw [if_pos he]
  · have e := h he
    unfold passDomainFilter at hk ⊢
    rw [e] at hk
    exact hk

/-- The `policy_mode` step is preserved when the parameter is inherited. -/
theorem passPolicyMode_mono (p1 p2 : Params)
    (h : p1.policy_mode ≠ "" → p2.policy_mode = p1.policy_mode) (m : Obj)
    (hk : passPolicyMode p2 m = true) : passPolicyMode p1 m = true := by
  by_cases he : p1.policy_mode = ""
  · unfold passPolicyMode
    rw [if_pos ((toLowerStr_eq_empty p1.policy_mode).mpr he)]
  · have e := h he
    unfold passPolicyMode at hk ⊢
    rw [e] at hk
    exact hk

/-- Keeping is antitone in the set of active filters. -/
theorem groupKeep_mono (p1 p2 : Params) (h : ParamsExtends p1 p2) (m : Obj)
    (hk : groupKeep p2 m = true) : groupKeep p1 m = true := by
  obtain ⟨hz, hd, hp⟩ := h
  simp only [groupKeep, Bool.and_eq_true] at hk ⊢
  obtain ⟨⟨⟨h1, h2⟩, h3⟩, h4⟩ := hk
  exact ⟨⟨⟨h1, passZeroDrift_mono p1 p2 hz m h2⟩, passDomainFilter_mono p1 p2 hd m h3⟩,
    passPolicyMode_mono p1 p2 hp m h4⟩

/-- Claim C4: group filtering is monotonic — when the second query enables
a superset of the first query's active filters with the same values on the
shared ones, every group returned by the second query is also returned by
the first (so, in particular, `zero_drift=true&domain=x` returns a subset
of `domain=x` alone). -/
theorem C4_group_filters_monotonic (p1 p2 : Params) (h : ParamsExtends p1 p2)
    (gs out1 out2 : List JVal)
    (h1 : processGroups p1 gs = some out1) (h2 : processGroups p2 gs = some out2) :
    ∀ v ∈ out2, v ∈ out1 := by
  induction gs generalizing out1 out2 with
  | nil =>
    simp only [processGroups] at h1 h2
    injection h1 with h1
    injection h2 with h2
    subst h1
    subst h2
    simp
  | cons w rest ih =>
    cases w with
    | obj g =>
      simp only [processGroups] at h1 h2
      cases hr1 : processGroups p1 rest with
      | none => rw [hr1] at h1; simp at h1
      | some t1 =>
        cases hr2 : processGroups p2 rest with
        | none => rw [hr2] at h2; simp at h2
        | some t2 =>
          rw [hr1, Option.map_some'] at h1
          rw [hr2, Option.map_some'] at h2
          injection h1 with h1
          injection h2 with h2
          subst h1
          subst h2
          intro v hv
          have hsub := ih t1 t2 hr1 hr2
          by_cases hk2 : groupKeep p2 g = true
          · rw [if_pos hk2] at hv
            rcases List.mem_cons.mp hv with heq | htail
            · have hk1 := groupKeep_mono p1 p2 h g hk2
              rw [if_pos hk1]
              exact List.mem_cons.mpr (Or.inl heq)
            · have hm := hsub v htail
              by_cases hk1 : groupKeep p1 g = true
              · rw [if_pos hk1]
                exact List.mem_cons_of_mem _ hm
              · rw [if_neg hk1]
                exact hm
          · rw [if_neg hk2] at hv
            have hm := hsub v hv
            by_cases hk1 : groupKeep p1 g = true
            · rw [if_pos hk1]
              exact List.mem_cons_of_mem _ hm
            · rw [if_neg hk1]
              exact hm
    | str s => simp only [processGroups] at h1; cases h1
    | num q => simp only [processGroups] at h1; cases h1
    | bool b => simp only [processGroups] at h1; cases h1
    | null => simp only [processGroups] at h1; cases h1
    | arr a => simp only [processGroups] at h1; cases h1

theorem C4_witness :
    ParamsExtends ⟨"", "x", ""⟩ ⟨"true", "x", ""⟩ ∧
    processGroups ⟨"", "x", ""⟩
      [JVal.obj [("name", JVal.str "g1"), ("domain", JVal.str "x")],
       JVal.obj [("name", JVal.str "g2"), ("domain", JVal.str "x"),
                 ("zero_drift_enabled", JVal.bool true)]] =
      some [JVal.obj [("name", JVal.str "g1"), ("domain", JVal.str "x")],
            JVal.obj [("name", JVal.str "g2"), ("domain", JVal.str "x"),
                      ("zero_drift_enabled", JVal.bool true)]] ∧
    processGroups ⟨"true", "x", ""⟩
      [JVal.obj [("name", JVal.str "g1"), ("domain", JVal.str "x")],
       JVal.obj [("name", JVal.str "g2"), ("domain", JVal.str "x"),
                 ("zero_drift_enabled", JVal.bool true)]] =
      some [JVal.obj [("name", JVal.str "g2"), ("domain", JVal.str "x"),
                      ("zero_drift_enabled", JVal.bool true)]] ∧
    (∀ v ∈ [JVal.obj [("name", JVal.str "g2"), ("domain", JVal.str "x"),
                      ("zero_drift_enabled", JVal.bool true)]],
      v ∈ [JVal.obj [("name", JVal.str "g1"), ("domain", JVal.str "x")],
           JVal.obj [("name", JVal.str "g2"), ("domain", JVal.str "x"),
                     ("zero_drift_enabled", JVal.bool true)]]) :=
  ⟨⟨fun hh => absurd rfl hh, fun _ => rfl, fun hh => absurd rfl hh⟩, rfl, rfl,
   C4_group_filters_monotonic ⟨"", "x", ""⟩ ⟨"true", "x", ""⟩
     ⟨fun hh => absurd rfl hh, fun _ => rfl, fun hh => absurd rfl hh⟩
     [JVal.obj [("name", JVal.str "g1"), ("domain", JVal.str "x")],
      JVal.obj [("name", JVal.str "g2"), ("domain", JVal.str "x"),
                ("zero_drift_enabled", JVal.bool true)]]
     [JVal.obj [("name", JVal.str "g1"), ("domain", JVal.str "x")],
      JVal.obj [("name", JVal.str "g2"), ("domain", JVal.str "x"),
                ("zero_drift_enabled", JVal.bool true)]]
     [JVal.obj [("name", JVal.str "g2"), ("domain", JVal.str "x"),
                ("zero_drift_enabled", JVal.bool true)]]
     rfl rfl⟩

/-- Claim C8: the key catalog retains exactly the root keys whose
lower-cased form contains the lower-cased filter as a substring; in
particular the queries "V1" and "v1" give identical results on every
document. -/
theorem C8_listKeys_ci_substring :
    (∀ (allKeys : List String) (q : String),
      listKeys allKeys q =
        allKeys.filter fun key => containsStr (toLowerStr key) (toLowerStr q)) ∧
    (∀ allKeys : List String, listKeys allKeys "V1" = listKeys allKeys "v1") := by
  refine ⟨listKeys_eq_filter, fun allKeys => ?_⟩
  rw [listKeys_eq_filter, listKeys_eq_filter]
  have h : toLowerStr "V1" = toLowerStr "v1" := by decide
  rw [h]
